import Mathlib

/-!
Verification development for the sgraph-mcp-server in-memory graph query
engine.  The data model (elements in a rooted tree, directed associations,
attribute maps) follows spec section 3 and the sgraph library interface the
services consume; the query services (search_service.py,
dependency_service.py, overview_service.py, sgraph_helper.py) and the
server tool handlers (server.py) are translated into Lean functions over
that model.  Python machine integers are modelled as Int, Python sets of
strings as Finset String or as membership in lists, Python dicts as
association lists with the same insert-or-overwrite behaviour, and a
Python exception crossing a function boundary as the error case of Except.
-/

/-- Scalar attribute value as carried by the Python attribute maps. -/
inductive PyVal where
  | vStr (s : String)
  | vInt (n : Int)
  | vBool (b : Bool)
deriving DecidableEq, Repr

/-- Element node of the architecture graph: name, type tag, the
getattr-visible attribute map, and the owned children (spec section 3).
The element path is not stored; it is derived from the chain of ancestor
names, as the spec prescribes.  The attrs field models the dynamic
attribute lookup (hasattr/getattr) that search_elements_by_attributes and
element_to_dict perform on an element object. -/
inductive ETree where
  | mk (name : String) (etype : String) (attrs : List (String × PyVal))
      (children : List ETree)

def ETree.name : ETree → String
  | .mk n _ _ _ => n

def ETree.etype : ETree → String
  | .mk _ ty _ _ => ty

def ETree.attrs : ETree → List (String × PyVal)
  | .mk _ _ a _ => a

def ETree.children : ETree → List ETree
  | .mk _ _ _ cs => cs

/-- Path of a child given the parent path (spec section 3: the path is the
chain of ancestor names joined by slashes; the synthetic root has the empty
name and the empty path). -/
def joinPath (p n : String) : String := if p = "" then n else p ++ "/" ++ n

mutual

/-- Size of a tree, the measure used for induction over elements. -/
def treeSize : ETree → Nat
  | .mk _ _ _ cs => 1 + forestSize cs

def forestSize : List ETree → Nat
  | [] => 0
  | c :: cs => treeSize c + forestSize cs

end

mutual

/-- All element paths in the subtree of a node whose own full path is sp. -/
def paths_from (sp : String) : ETree → List String
  | .mk _ _ _ cs => sp :: paths_fromL sp cs

def paths_fromL (pp : String) : List ETree → List String
  | [] => []
  | c :: cs => paths_from (joinPath pp c.name) c ++ paths_fromL pp cs

end

mutual

/-- Depth-first enumeration of the scoped subtree as (full path, element)
pairs, the element itself included first.  The Python services walk the
same subtree with an explicit pop-and-extend stack (visiting siblings in
reverse order); the claims under study are about the set of visited
elements, which is identical. -/
def subtree_hits (sp : String) : ETree → List (String × ETree)
  | .mk n ty a cs => (sp, .mk n ty a cs) :: subtree_hitsL sp cs

def subtree_hitsL (pp : String) : List ETree → List (String × ETree)
  | [] => []
  | c :: cs => subtree_hits (joinPath pp c.name) c ++ subtree_hitsL pp cs

end

/-- Splitting a character list at a separator, with the semantics of the
Python str.split used by path resolution: the empty string yields one empty
segment, adjacent separators yield empty segments. -/
def splitChars (sep : Char) : List Char → List (List Char)
  | [] => [[]]
  | c :: rest =>
      let r := splitChars sep rest
      if c = sep then [] :: r
      else
        match r with
        | [] => [[c]]
        | g :: gs => (c :: g) :: gs

/-- Path segments of an element path string. -/
def pathSegments (p : String) : List String :=
  (splitChars '/' p.data).map (fun l => String.mk l)

/-- Resolution of a path-segment list by descending the element tree
matching child names, accumulating the canonical full path of the node
reached.  Models the sgraph findElementFromPath lookup the services call
(spec sections 3 and 4: a path resolves to the element whose ancestor-name
chain spells it; an unmatched segment means not-found). -/
def descend_path (acc : String) (t : ETree) : List String → Option (String × ETree)
  | [] => some (acc, t)
  | s :: rest =>
      match t.children.find? (fun c => c.name == s) with
      | some c => descend_path (joinPath acc s) c rest
      | none => none

/-- Directed association edge: source path, target path, type tag (the
sgraph association with the getattr type default already applied). -/
structure SAssoc where
  src : String
  dst : String
  typ : String
deriving DecidableEq, Repr

/-- A loaded graph model: the root element tree plus the union of all
associations (spec section 3). -/
structure Graph where
  root : ETree
  assocs : List SAssoc

/-- findElementFromPath of the model: descend from the root by child
names. -/
def findElementFromPath (g : Graph) (p : String) : Option (String × ETree) :=
  descend_path g.root.name g.root (pathSegments p)

/-- The outgoing associations of the element at a path, as the sgraph
element.outgoing reference set (spec section 3 invariant c). -/
def outgoingOf (g : Graph) (p : String) : List SAssoc :=
  g.assocs.filter (fun a => a.src == p)

/-- The incoming associations of the element at a path. -/
def incomingOf (g : Graph) (p : String) : List SAssoc :=
  g.assocs.filter (fun a => a.dst == p)

/-- Whether sub starts the character list s. -/
def startsWithChars : List Char → List Char → Bool
  | _, [] => true
  | [], _ :: _ => false
  | a :: as', b :: bs => a == b && startsWithChars as' bs

/-- Substring test with the semantics of the Python "sub in s" operator
used for the External-namespace check. -/
def containsSub (s : List Char) (sub : List Char) : Bool :=
  startsWithChars s sub ||
    match s with
    | [] => false
    | _ :: rest => containsSub rest sub

/-- String-level substring test: Python "sub in s". -/
def strContains (s sub : String) : Bool := containsSub s.data sub.data

/-- Value stored in a projected wire dictionary. -/
inductive DVal where
  | dStr (s : String)
  | dStrList (l : List String)
  | dVal (v : PyVal)
deriving DecidableEq, Repr

/-- Python dict assignment d[k] = v on an insertion-ordered dict modelled
as an association list: overwrite in place when the key exists, append
otherwise. -/
def dict_set (d : List (String × DVal)) (k : String) (v : DVal) : List (String × DVal) :=
  if d.any (fun kv => kv.1 == k) then d.map (fun kv => if kv.1 == k then (k, v) else kv)
  else d ++ [(k, v)]

/-- Key membership in a projected dictionary. -/
def has_key (d : List (String × DVal)) (k : String) : Bool :=
  d.any (fun kv => kv.1 == k)

/-- Dynamic attribute lookup on an element object: getattr as an Option,
hasattr as isSome (spec section 9 notes the services use hasattr/getattr
reflection). -/
def attr_lookup (t : ETree) (k : String) : Option PyVal :=
  (t.attrs.find? (fun kv => kv.1 == k)).map (fun kv => kv.2)

/-- Paths of the children of an element, as element_to_dict lists them. -/
def child_paths (sp : String) (t : ETree) : List String :=
  t.children.map (fun c => joinPath sp c.name)

/-- element_to_dict of core/element_converter.py and sgraph_helper.py:
the base projection with name, path, type and child_paths, then each
requested additional field is assigned into the dict when hasattr holds
and silently skipped otherwise. -/
def element_to_dict (sp : String) (t : ETree) (additional_fields : List String) : List (String × DVal) :=
  additional_fields.foldl
    (fun d f =>
      match attr_lookup t f with
      | some v => dict_set d f (.dVal v)
      | none => d)
    [("name", .dStr t.name), ("path", .dStr sp), ("type", .dStr t.etype),
     ("child_paths", .dStrList (child_paths sp t))]

/-- Result shape of get_multiple_elements. -/
structure MultiResult where
  requested_count : Nat
  found_count : Nat
  elements : List (List (String × DVal))
  not_found : List String
deriving Repr

/-- Loop body of get_multiple_elements (dependency_service.py lines
198-205): resolve each path in order, appending to not_found on a miss and
to elements on a hit, never stopping early. -/
def multi_go (g : Graph) (additional_fields : List String) :
    List String → MultiResult → MultiResult
  | [], r => r
  | p :: rest, r =>
      match findElementFromPath g p with
      | none =>
          multi_go g additional_fields rest { r with not_found := r.not_found ++ [p] }
      | some se =>
          multi_go g additional_fields rest
            { r with
              elements := r.elements ++ [element_to_dict se.1 se.2 additional_fields],
              found_count := r.found_count + 1 }

/-- get_multiple_elements of dependency_service.py / sgraph_helper.py. -/
def get_multiple_elements (g : Graph) (element_paths : List String)
    (additional_fields : List String) : MultiResult :=
  multi_go g additional_fields element_paths ⟨element_paths.length, 0, [], []⟩

/-- Abstraction of the Python re module as the services use it:
compile p yields the unanchored search predicate of the compiled pattern
(none models a re.error raised by re.compile / re.search compiling the
pattern), and escape is re.escape.  The services treat re as a black box,
so the claims are quantified over every engine. -/
structure RegexEngine where
  compile : String → Option (String → Bool)
  escape : String → String

/-- Glob fallback rewrite of sgraph_helper.py line 129 and
search_service.py line 50: star to dot-star and question mark to dot.
The source applies str.replace twice; as the replaced needles are single
characters and the replacements contain neither needle in a position the
left-to-right scan would revisit, this equals the character-wise
expansion. -/
def glob_translate_chars : List Char → List Char
  | [] => []
  | c :: rest =>
      if c = '*' then '.' :: '*' :: glob_translate_chars rest
      else if c = '?' then '.' :: glob_translate_chars rest
      else c :: glob_translate_chars rest

def glob_translate (p : String) : String := String.mk (glob_translate_chars p.data)

/-- Scope resolution shared by the three search shapes: default to the
graph root, otherwise resolve the scope path; none means the not-found
early return. -/
def resolve_start (g : Graph) (scope_path : Option String) : Option (String × ETree) :=
  match scope_path with
  | none => some (g.root.name, g.root)
  | some sp => findElementFromPath g sp

mutual

/-- Depth-first search collecting the elements satisfying keep, mirroring
the stack-based while loop of the search services (check the element, then
descend into its children).  The source loop pops a stack and therefore
visits siblings in reverse order; this recursion visits them in order —
the spec explicitly leaves sibling order unspecified and the claims are
about the result set. -/
def search_rec (keep : String → ETree → Bool) (sp : String) : ETree → List (String × ETree)
  | .mk n ty a cs =>
      (if keep sp (.mk n ty a cs) then [(sp, .mk n ty a cs)] else []) ++
        search_recL keep sp cs

def search_recL (keep : String → ETree → Bool) (pp : String) : List ETree → List (String × ETree)
  | [] => []
  | c :: cs => search_rec keep (joinPath pp c.name) c ++ search_recL keep pp cs

end

/-- Per-element predicate of search_elements_by_name: the compiled pattern
searches the element name, conjoined with the optional exact type
filter. -/
def name_type_keep (f : String → Bool) (element_type : Option String) :
    String → ETree → Bool :=
  fun _ t =>
    f t.name &&
      match element_type with
      | none => true
      | some ty => t.etype == ty

/-- search_elements_by_name of sgraph_helper.py (lines 107-153), the
implementation behind the sgraph_search_elements_by_name tool of
server.py: resolve the scope (not-found gives the empty result), compile
the pattern, on a re.error compile the glob translation instead, then
filter the scoped subtree by unanchored name search and optional type
equality.  A second compile failure raises re.error out of the function
(the Except error case). -/
def search_elements_by_name (E : RegexEngine) (g : Graph) (pattern : String)
    (element_type : Option String) (scope_path : Option String) :
    Except String (List (String × ETree)) :=
  match resolve_start g scope_path with
  | none => .ok []
  | some se =>
      match E.compile pattern with
      | some f => .ok (search_rec (name_type_keep f element_type) se.1 se.2)
      | none =>
          match E.compile (glob_translate pattern) with
          | some f => .ok (search_rec (name_type_keep f element_type) se.1 se.2)
          | none => .error "re.error"

/-- validate_pattern of utils/validators.py: a pattern is valid when it is
nonempty and compiles. -/
def validate_pattern (E : RegexEngine) (pattern : String) : Bool :=
  !(pattern == "") && (E.compile pattern).isSome

/-- search_elements_by_name of services/search_service.py (lines 20-68):
same loop, but the pattern is first validated and an invalid pattern is
replaced by its re.escape before compiling, so the glob branch is only
reached if even the escaped pattern fails to compile. -/
def svc_search_elements_by_name (E : RegexEngine) (g : Graph) (pattern : String)
    (element_type : Option String) (scope_path : Option String) :
    Except String (List (String × ETree)) :=
  match resolve_start g scope_path with
  | none => .ok []
  | some se =>
      let pattern1 := if validate_pattern E pattern then pattern else E.escape pattern
      match E.compile pattern1 with
      | some f => .ok (search_rec (name_type_keep f element_type) se.1 se.2)
      | none =>
          match E.compile (glob_translate pattern1) with
          | some f => .ok (search_rec (name_type_keep f element_type) se.1 se.2)
          | none => .error "re.error"

/-- Single attribute filter comparison (search_service.py lines 134-146,
sgraph_helper.py lines 212-225): for a string expected value against a
string actual value, re.search of the expected pattern, falling back to
exact equality when the pattern does not compile; any other pairing is
plain equality. -/
def attr_val_match (E : RegexEngine) (expected actual : PyVal) : Bool :=
  match expected, actual with
  | .vStr es, .vStr s =>
      match E.compile es with
      | some f => f s
      | none => s == es
  | _, _ => actual == expected

/-- Filter conjunction loop of search_elements_by_attributes: walk the
filters, failing (break) on the first missing attribute or mismatched
value. -/
def matches_all_filters (E : RegexEngine) (t : ETree) :
    List (String × PyVal) → Bool
  | [] => true
  | (k, v) :: rest =>
      match attr_lookup t k with
      | none => false
      | some av => if attr_val_match E v av then matches_all_filters E t rest else false

/-- search_elements_by_attributes of services/search_service.py (lines
101-154) and sgraph_helper.py (lines 181-232), identical logic: resolve
the scope, then keep the elements of the scoped subtree that pass every
attribute filter. -/
def search_elements_by_attributes (E : RegexEngine) (g : Graph)
    (attribute_filters : List (String × PyVal)) (scope_path : Option String) :
    List (String × ETree) :=
  match resolve_start g scope_path with
  | none => []
  | some se => search_rec (fun _ t => matches_all_filters E t attribute_filters) se.1 se.2

/-- External-namespace needle of the include_external filter
(dependency_service.py lines 70 and 84, sgraph_helper.py lines 286 and
307). -/
def extSeg : String := "/External/"

mutual

/-- Depth-bounded subtree collection of get_subtree_dependencies
(dependency_service.py lines 44-56): starting from the resolved root at
depth 0, an element is kept and its children explored only while its depth
does not exceed the optional max depth.  The source collects the same
elements into a set with an explicit stack; sp is the full path of t and d
its depth. -/
def collect_subtree (max_depth : Option Int) (sp : String) (d : Int) :
    ETree → List (String × ETree)
  | .mk n ty a cs =>
      if (match max_depth with | some m => decide (d > m) | none => false) then []
      else (sp, .mk n ty a cs) :: collect_subtreeL max_depth sp (d + 1) cs

def collect_subtreeL (max_depth : Option Int) (pp : String) (d : Int) :
    List ETree → List (String × ETree)
  | [] => []
  | c :: cs =>
      collect_subtree max_depth (joinPath pp c.name) d c ++
        collect_subtreeL max_depth pp d cs

end

/-- Dependency edge projection of association_to_dict: from path, to path,
type (the Python dict keys from / to / type). -/
structure DepInfo where
  fromPath : String
  toPath : String
  typ : String
deriving DecidableEq, Repr

def assoc_to_dep (a : SAssoc) : DepInfo := ⟨a.src, a.dst, a.typ⟩

/-- Result shape of get_subtree_dependencies. -/
structure SubtreeResult where
  subtree_elements : List (List (String × DVal))
  internal_dependencies : List DepInfo
  incoming_dependencies : List DepInfo
  outgoing_dependencies : List DepInfo
deriving Repr

/-- Outgoing-association classification loop for one subtree element
(dependency_service.py lines 66-78): skip the association when external
targets are excluded and the target path contains the External segment;
otherwise it is internal when the target path is in the subtree path set,
the contribution to internal_dependencies. -/
def elem_internal_deps (g : Graph) (include_external : Bool)
    (subtree_paths : List String) (p : String) : List DepInfo :=
  (outgoingOf g p).filterMap (fun a =>
    if !include_external && strContains a.dst extSeg then none
    else if a.dst ∈ subtree_paths then some (assoc_to_dep a) else none)

/-- Same loop, the contribution to outgoing_dependencies (target outside
the subtree path set). -/
def elem_outgoing_deps (g : Graph) (include_external : Bool)
    (subtree_paths : List String) (p : String) : List DepInfo :=
  (outgoingOf g p).filterMap (fun a =>
    if !include_external && strContains a.dst extSeg then none
    else if a.dst ∈ subtree_paths then none else some (assoc_to_dep a))

/-- Incoming-association classification loop for one subtree element
(dependency_service.py lines 80-89): skip when external sources are
excluded and the source path contains the External segment; keep only
sources outside the subtree path set. -/
def elem_incoming_deps (g : Graph) (include_external : Bool)
    (subtree_paths : List String) (p : String) : List DepInfo :=
  (incomingOf g p).filterMap (fun a =>
    if !include_external && strContains a.src extSeg then none
    else if a.src ∈ subtree_paths then none else some (assoc_to_dep a))

/-- get_subtree_dependencies of services/dependency_service.py (lines
19-96) and sgraph_helper.py (lines 234-319): resolve the root (not-found
gives the empty result shape), collect the depth-bounded subtree, then
classify every association of every subtree element.  The source appends
to the three result lists inside one loop over the subtree elements; the
per-collection order and content is the per-element concatenation below. -/
def get_subtree_dependencies (g : Graph) (root_path : String)
    (include_external : Bool) (max_depth : Option Int) : SubtreeResult :=
  match findElementFromPath g root_path with
  | none => ⟨[], [], [], []⟩
  | some se =>
      let sub := collect_subtree max_depth se.1 0 se.2
      let subtree_paths := sub.map (fun e => e.1)
      { subtree_elements := sub.map (fun e => element_to_dict e.1 e.2 []),
        internal_dependencies :=
          sub.flatMap (fun e => elem_internal_deps g include_external subtree_paths e.1),
        incoming_dependencies :=
          sub.flatMap (fun e => elem_incoming_deps g include_external subtree_paths e.1),
        outgoing_dependencies :=
          sub.flatMap (fun e => elem_outgoing_deps g include_external subtree_paths e.1) }

/-- Aggregate statistics accumulated by the overview builder. -/
structure OvStats where
  total : Nat
  depth_counts : List (Nat × Nat)
  type_counts : List (String × Nat)
deriving Repr

/-- Histogram increment on an insertion-ordered Python dict: create the
key with count 0 then add 1, i.e. increment in place or append with count
1. -/
def bump {κ : Type} [BEq κ] (k : κ) : List (κ × Nat) → List (κ × Nat)
  | [] => [(k, 1)]
  | (k1, v) :: rest => if k == k1 then (k1, v + 1) :: rest else (k1, v) :: bump k rest

/-- Node descriptor built by build_tree_structure: name, path, type,
depth, the optional count triple (children, incoming, outgoing), the
children map when within max depth, and otherwise the truncated-children
count when children exist.  The Python children dict is keyed by child
display name; the association list below keeps duplicate-named siblings
that the dict would overwrite, which the counted statistics ignore. -/
inductive OvNode where
  | mk (name : String) (path : String) (typ : String) (depth : Nat)
      (counts : Option (Nat × Nat × Nat))
      (children : Option (List (String × OvNode)))
      (has_more_children : Option Nat)

/-- Display type of an element in the overview: getType() or "unknown"
when falsy. -/
def type_or_unknown (t : ETree) : String := if t.etype = "" then "unknown" else t.etype

/-- Display name of a child in the overview children map. -/
def child_key (c : ETree) : String :=
  if c.name = "" then "<unnamed_" ++ c.etype ++ ">" else c.name

mutual

/-- build_tree_structure of services/overview_service.py (lines 44-82)
and sgraph_helper.py (lines 442-480): count the element once at its
current depth (total, depth histogram, type histogram), attach the count
triple when requested, and recurse into the children only while the
current depth is strictly below max depth, otherwise record the truncated
child count.  sp is the full path of the element, d its depth. -/
def build_tree_structure (g : Graph) (max_depth : Int) (include_counts : Bool)
    (sp : String) (d : Nat) : ETree → OvStats → OvNode × OvStats
  | .mk n ty a cs, st =>
      let st1 : OvStats :=
        { total := st.total + 1,
          depth_counts := bump d st.depth_counts,
          type_counts := bump (type_or_unknown (.mk n ty a cs)) st.type_counts }
      let counts :=
        if include_counts then
          some (cs.length, (incomingOf g sp).length, (outgoingOf g sp).length)
        else none
      if (d : Int) < max_depth then
        let r := build_children g max_depth include_counts sp (d + 1) cs st1
        (.mk n sp (type_or_unknown (.mk n ty a cs)) d counts (some r.1) none, r.2)
      else
        (.mk n sp (type_or_unknown (.mk n ty a cs)) d counts none
          (if cs.length > 0 then some cs.length else none), st1)

/-- Children loop of build_tree_structure: left-to-right over the owned
children at depth d, threading the statistics. -/
def build_children (g : Graph) (max_depth : Int) (include_counts : Bool)
    (pp : String) (d : Nat) : List ETree → OvStats → List (String × OvNode) × OvStats
  | [], st => ([], st)
  | c :: cs, st =>
      let r := build_tree_structure g max_depth include_counts (joinPath pp c.name) d c st
      let rl := build_children g max_depth include_counts pp d cs r.2
      ((child_key c, r.1) :: rl.1, rl.2)

end

/-- Result shape of get_model_overview, the tree plus the summary
fields. -/
structure OverviewResult where
  root_path : String
  max_depth : Int
  tree_structure : OvNode
  total_elements : Nat
  depth_counts : List (Nat × Nat)
  type_distribution : List (String × Nat)

/-- get_model_overview of services/overview_service.py (lines 18-95) and
sgraph_helper.py (lines 418-491): build the tree from the root at depth 0
with empty statistics and return the accumulated summary. -/
def get_model_overview (g : Graph) (max_depth : Int) (include_counts : Bool) :
    OverviewResult :=
  let r := build_tree_structure g max_depth include_counts g.root.name 0 g.root ⟨0, [], []⟩
  ⟨"", max_depth, r.1, r.2.total, r.2.depth_counts, r.2.type_counts⟩

/-- Traversal direction of get_dependency_chain. -/
inductive ChainDir where
  | outgoing
  | incoming
  | both
deriving DecidableEq, Repr

/-- Dependency record appended to all_dependencies: from, to, direction,
type, depth. -/
structure DepEntry where
  fromPath : String
  toPath : String
  direction : String
  typ : String
  depth : Int
deriving DecidableEq, Repr

/-- Chain record appended for every non-root visited element: the ancestor
chain of paths and the depth. -/
structure ChainEntry where
  path : List String
  depth : Int
deriving DecidableEq, Repr

/-- Mutable state of the chain traversal: the global visited set keyed by
element path, the dependency and chain accumulators, and expanded, a ghost
log recording each element path right after it passes the visited check
(the order of expansions); expanded is not part of the wire result. -/
structure ChainState where
  visited : Finset String
  expanded : List String
  deps : List DepEntry
  chains : List ChainEntry

/-- All element paths that the chain traversal can ever expand: the tree
paths together with both endpoints of every association. -/
def pathUniv (g : Graph) : Finset String :=
  (paths_from g.root.name g.root).toFinset ∪
    ((g.assocs.map SAssoc.src).toFinset ∪ (g.assocs.map SAssoc.dst).toFinset)

/-- The association list built at a visited element (dependency_service.py
lines 136-146): target element path, direction string and type for the
requested direction(s), outgoing first. -/
def assoc_targets (g : Graph) (dir : ChainDir) (p : String) :
    List (String × String × String) :=
  (if dir = ChainDir.outgoing ∨ dir = ChainDir.both then
    (outgoingOf g p).map (fun a => (a.dst, "outgoing", a.typ))
  else []) ++
  (if dir = ChainDir.incoming ∨ dir = ChainDir.both then
    (incomingOf g p).map (fun a => (a.src, "incoming", a.typ))
  else [])

theorem assoc_targets_mem (g : Graph) (dir : ChainDir) (p : String) :
    ∀ x ∈ assoc_targets g dir p, x.1 ∈ pathUniv g := by
  intro x hx
  simp only [assoc_targets, List.mem_append] at hx
  rcases hx with hx | hx
  · split at hx
    · simp only [List.mem_map, outgoingOf, List.mem_filter] at hx
      obtain ⟨a, ⟨ha, _⟩, rfl⟩ := hx
      simp only [pathUniv, Finset.mem_union, List.mem_toFinset, List.mem_map]
      exact Or.inr (Or.inr ⟨a, ha, rfl⟩)
    · simp at hx
  · split at hx
    · simp only [List.mem_map, incomingOf, List.mem_filter] at hx
      obtain ⟨a, ⟨ha, _⟩, rfl⟩ := hx
      simp only [pathUniv, Finset.mem_union, List.mem_toFinset, List.mem_map]
      exact Or.inr (Or.inl ⟨a, ha, rfl⟩)
    · simp at hx

/-- Preservation contract of one traversal step: the visited set only
grows, and if the expansion log was duplicate-free and below the visited
set then it stays so. -/
def InvStep (s s1 : ChainState) : Prop :=
  s.visited ⊆ s1.visited ∧
    (s.expanded.Nodup → (∀ q ∈ s.expanded, q ∈ s.visited) →
      s1.expanded.Nodup ∧ ∀ q ∈ s1.expanded, q ∈ s1.visited)

theorem invStep_refl (s : ChainState) : InvStep s s :=
  ⟨Finset.Subset.refl _, fun h1 h2 => ⟨h1, h2⟩⟩

theorem invStep_trans {a b c : ChainState} (h1 : InvStep a b) (h2 : InvStep b c) :
    InvStep a c := by
  refine ⟨h1.1.trans h2.1, fun hn hs => ?_⟩
  obtain ⟨hn1, hs1⟩ := h1.2 hn hs
  exact h2.2 hn1 hs1

/-- State change visited.add(path), expanded log append, done right after
the visited check passes. -/
def expand_state (elem : String) (s : ChainState) : ChainState :=
  { s with visited := insert elem s.visited, expanded := s.expanded ++ [elem] }

/-- State change appending one dependency record. -/
def add_dep (e : DepEntry) (s : ChainState) : ChainState :=
  { s with deps := s.deps ++ [e] }

/-- State change appending the chain record for a non-root element (the
source records the current path when its length exceeds one). -/
def add_chain (cur : List String) (depth : Int) (s : ChainState) : ChainState :=
  if cur.length > 1 then { s with chains := s.chains ++ [⟨cur, depth⟩] } else s

theorem invStep_expand {elem : String} {s : ChainState} (hv : elem ∉ s.visited) :
    InvStep s (expand_state elem s) := by
  refine ⟨Finset.subset_insert _ _, fun hn hs => ?_⟩
  constructor
  · simp only [expand_state, List.nodup_append, List.nodup_cons]
    refine ⟨hn, by simp, fun q hq hq1 => ?_⟩
    simp only [List.mem_singleton] at hq1
    exact hv (hq1 ▸ hs q hq)
  · intro q hq
    simp only [expand_state, List.mem_append, List.mem_singleton] at hq
    rcases hq with hq | rfl
    · exact Finset.mem_insert_of_mem (hs q hq)
    · exact Finset.mem_insert_self _ _

theorem invStep_add_dep (e : DepEntry) (s : ChainState) : InvStep s (add_dep e s) :=
  ⟨Finset.Subset.refl _, fun h1 h2 => ⟨h1, h2⟩⟩

theorem invStep_add_chain (cur : List String) (depth : Int) (s : ChainState) :
    InvStep s (add_chain cur depth s) := by
  unfold add_chain
  split
  · exact ⟨Finset.Subset.refl _, fun h1 h2 => ⟨h1, h2⟩⟩
  · exact invStep_refl s

theorem card_sdiff_insert_lt {U V : Finset String} {elem : String}
    (hU : elem ∈ U) (hV : elem ∉ V) :
    (U \ insert elem V).card < (U \ V).card := by
  apply Finset.card_lt_card
  constructor
  · exact Finset.sdiff_subset_sdiff (Finset.Subset.refl _) (Finset.subset_insert _ _)
  · intro hsub
    have h1 : elem ∈ U \ V := Finset.mem_sdiff.mpr ⟨hU, hV⟩
    have h2 := hsub h1
    simp at h2

mutual

/-- traverse_dependencies of get_dependency_chain (dependency_service.py
lines 124-168, sgraph_helper.py lines 345-385): return when the depth
exceeds max depth or the element path is already in the global visited
set; otherwise mark it visited, record and recurse through every
association of the requested direction, and finally record the chain path
when not at the root.  Totality of this definition rests on the measure
below: every expansion removes one element of pathUniv from the unvisited
set, which is the termination argument of the claim on cyclic graphs. -/
def trav_visit (g : Graph) (dir : ChainDir) (max_depth : Option Int) (elem : String)
    (depth : Int) (path : List String) (s : ChainState) (hmem : elem ∈ pathUniv g) :
    {s1 : ChainState // InvStep s s1} :=
  if (match max_depth with | some m => decide (depth > m) | none => false) then
    ⟨s, invStep_refl s⟩
  else if hv : elem ∈ s.visited then ⟨s, invStep_refl s⟩
  else
    let r := trav_walk g dir max_depth elem (assoc_targets g dir elem) depth
      (path ++ [elem]) (expand_state elem s) (assoc_targets_mem g dir elem)
    ⟨add_chain (path ++ [elem]) depth r.1,
      invStep_trans (invStep_trans (invStep_expand hv) r.2)
        (invStep_add_chain (path ++ [elem]) depth r.1)⟩
termination_by ((pathUniv g \ s.visited).card, 0)
decreasing_by
  exact Prod.Lex.left _ _ (card_sdiff_insert_lt hmem hv)

/-- Loop over the association list of one visited element: append the
dependency record, recurse into the target, continue with the rest. -/
def trav_walk (g : Graph) (dir : ChainDir) (max_depth : Option Int) (fromP : String)
    (assocs : List (String × String × String)) (depth : Int) (cur : List String)
    (s : ChainState) (hmem : ∀ x ∈ assocs, x.1 ∈ pathUniv g) :
    {s1 : ChainState // InvStep s s1} :=
  match assocs with
  | [] => ⟨s, invStep_refl s⟩
  | x :: rest =>
      let r := trav_visit g dir max_depth x.1 (depth + 1) cur
        (add_dep ⟨fromP, x.1, x.2.1, x.2.2, depth⟩ s) (hmem x (by simp))
      let r2 := trav_walk g dir max_depth fromP rest depth cur r.1
        (fun y hy => hmem y (by simp [hy]))
      ⟨r2.1, invStep_trans (invStep_trans (invStep_add_dep _ s) r.2) r2.2⟩
termination_by ((pathUniv g \ s.visited).card, assocs.length + 1)
decreasing_by
  · exact Prod.Lex.right _ (by omega)
  · have hle : ((pathUniv g \ r.1.visited).card) ≤ ((pathUniv g \ s.visited).card) := by
      apply Finset.card_le_card
      exact Finset.sdiff_subset_sdiff (Finset.Subset.refl _) r.2.1
    rcases lt_or_eq_of_le hle with h | h
    · exact Prod.Lex.left _ _ h
    · rw [h]
      exact Prod.Lex.right _ (by simp [List.length_cons])

end

/-- Result shape of get_dependency_chain; expanded_log is the ghost
expansion log of the traversal, not part of the wire result. -/
structure ChainResult where
  root_element : String
  direction : ChainDir
  max_depth : Option Int
  chain : List ChainEntry
  all_dependencies : List DepEntry
  expanded_log : List String

theorem paths_fromL_mem {pp : String} {cs : List ETree} {c : ETree} (hc : c ∈ cs)
    {q : String} (hq : q ∈ paths_from (joinPath pp c.name) c) :
    q ∈ paths_fromL pp cs := by
  induction cs with
  | nil => simp at hc
  | cons d ds ih =>
    rcases List.mem_cons.mp hc with rfl | hmem
    · simp only [paths_fromL, List.mem_append]
      exact Or.inl hq
    · simp only [paths_fromL, List.mem_append]
      exact Or.inr (ih hmem)

theorem descend_path_mem {segs : List String} :
    ∀ {acc : String} {t : ETree} {ap : String} {t1 : ETree},
      descend_path acc t segs = some (ap, t1) → ap ∈ paths_from acc t := by
  induction segs with
  | nil =>
    intro acc t ap t1 h
    simp only [descend_path, Option.some.injEq, Prod.mk.injEq] at h
    obtain ⟨n, ty, a, cs⟩ := t
    simp only [paths_from]
    rw [← h.1]
    exact List.mem_cons_self _ _
  | cons s rest ih =>
    intro acc t ap t1 h
    simp only [descend_path] at h
    rcases hfind : t.children.find? (fun c => c.name == s) with _ | c
    · rw [hfind] at h
      simp at h
    · rw [hfind] at h
      have hcmem : c ∈ t.children := List.mem_of_find?_eq_some hfind
      have hname : c.name = s := by
        have := List.find?_some hfind
        simpa using this
      have hp := ih h
      obtain ⟨n, ty, a, cs⟩ := t
      simp only [paths_from]
      refine List.mem_cons.mpr (Or.inr ?_)
      have : joinPath acc s = joinPath acc c.name := by rw [hname]
      rw [this] at hp
      exact paths_fromL_mem hcmem hp

theorem find_mem_univ {g : Graph} {p : String} {se : String × ETree}
    (h : findElementFromPath g p = some se) : se.1 ∈ pathUniv g := by
  obtain ⟨ap, t1⟩ := se
  unfold findElementFromPath at h
  have := descend_path_mem h
  simp only [pathUniv, Finset.mem_union, List.mem_toFinset]
  exact Or.inl this

/-- get_dependency_chain of services/dependency_service.py (lines 98-177)
and sgraph_helper.py (lines 321-391): resolve the start element (not
found gives the same result shape with empty chain and dependencies), then
run the recursive traversal from it at depth 0 with the empty path and an
empty visited set. -/
def get_dependency_chain (g : Graph) (element_path : String) (direction : ChainDir)
    (max_depth : Option Int) : ChainResult :=
  match h : findElementFromPath g element_path with
  | none => ⟨element_path, direction, max_depth, [], [], []⟩
  | some se =>
      let r := trav_visit g direction max_depth se.1 0 [] ⟨∅, [], [], []⟩
        (find_mem_univ h)
      ⟨element_path, direction, max_depth, r.1.chains, r.1.deps, r.1.expanded⟩

/-- A model object as stored in the cache.  The loader is external; the
load logging in sgraph_helper.py line 81 guards on
hasattr(model, rootNode) and on its truthiness, so a cached model with a
missing root is representable and rootNode is an Option here.  Projecting
a missing root raises AttributeError inside element_to_dict. -/
structure LoadedModel where
  rootNode : Option ETree
  model_assocs : List SAssoc

/-- Wire-level outcome of one tool operation: a success payload or the
error-message dict value. -/
inductive ToolOut where
  | element_payload (d : List (String × DVal))
  | search_payload (elements : List (List (String × DVal))) (count : Nat) (pattern : String)
  | error_payload (msg : String)

/-- sgraph_get_root_element of server.py (lines 65-72): look up the model
(the not-loaded case answers an error value), then project the root
element.  The body has no exception handler, so a raising projection step
(here: a model whose rootNode is missing) propagates past the boundary as
the Except error case. -/
def sgraph_get_root_element (models : String → Option LoadedModel)
    (model_id : String) : Except String ToolOut :=
  match models model_id with
  | none => .ok (.error_payload "Model not loaded")
  | some m =>
      match m.rootNode with
      | none => .error "AttributeError: NoneType has no attribute name"
      | some root => .ok (.element_payload (element_to_dict root.name root []))

/-- sgraph_search_elements_by_name of server.py (lines 145-168): look up
the model, then run the search inside the try block; any exception raised
by the body (a missing root, or a glob pattern that fails to compile too)
is caught and rendered as the search-failed error value. -/
def sgraph_search_elements_by_name_tool (models : String → Option LoadedModel)
    (E : RegexEngine) (model_id : String) (pattern : String)
    (element_type : Option String) (scope_path : Option String) : Except String ToolOut :=
  match models model_id with
  | none => .ok (.error_payload "Model not loaded")
  | some m =>
      match
        (match m.rootNode with
         | none => Except.error "AttributeError: NoneType has no attribute name"
         | some root =>
             search_elements_by_name E ⟨root, m.model_assocs⟩ pattern element_type
               scope_path) with
      | .ok hits =>
          .ok (.search_payload (hits.map (fun h => element_to_dict h.1 h.2 []))
            hits.length pattern)
      | .error e => .ok (.error_payload ("Search failed: " ++ e))

/-- Spec-side pattern selection written from the claim wording: compile
the pattern; exactly when that fails, compile the glob translation
instead. -/
def compile_with_glob (E : RegexEngine) (pattern : String) : Option (String → Bool) :=
  match E.compile pattern with
  | some f => some f
  | none => E.compile (glob_translate pattern)

/-- Concrete regex engine used by the witnesses, agreeing with the Python
re module on the few patterns involved: compiling star-a raises (nothing
to repeat); its escape is backslash-star-a, which compiles to the literal
unanchored search; the glob translation dot-star-a compiles to a search
that succeeds on any name containing the letter a; any other pattern is
treated as a literal search. -/
def E0 : RegexEngine where
  compile := fun s =>
    if s = "*a" then none
    else if s = "\\*a" then some (fun n => strContains n "*a")
    else if s = ".*a" then some (fun n => strContains n "a")
    else some (fun n => strContains n s)
  escape := fun s => if s = "*a" then "\\*a" else s

/-- Leaf element named xa used by the search witnesses. -/
def t_xa : ETree := .mk "xa" "file" [] []

/-- One-child graph used by the search witnesses. -/
def g0 : Graph := ⟨.mk "" "" [] [t_xa], []⟩

/-- Graph of the spec section 8 scenario: root, project A owning B and C,
one association B to C typed uses. -/
def gBC : Graph :=
  ⟨.mk "" "" [] [.mk "A" "dir" [] [.mk "B" "file" [] [], .mk "C" "file" [] []]],
    [⟨"A/B", "A/C", "uses"⟩]⟩

/-- Graph with a subtree under an External namespace segment that itself
has an outgoing dependency to a non-external target. -/
def gExt : Graph :=
  ⟨.mk "" "" []
      [.mk "Proj" "dir" []
        [.mk "External" "dir" [] [.mk "lib" "file" [] []],
         .mk "Main" "dir" [] [.mk "y" "file" [] []]]],
    [⟨"Proj/External/lib", "Proj/Main/y", "use"⟩]⟩

/-- Cyclic association graph of the termination claim: A and B depend on
each other. -/
def gCycle : Graph :=
  ⟨.mk "" "" [] [.mk "A" "file" [] [], .mk "B" "file" [] []],
    [⟨"A", "B", "use"⟩, ⟨"B", "A", "use"⟩]⟩

/-- Element carrying one dynamic attribute, for the attribute-search
witness. -/
def t_attr : ETree := .mk "n1" "file" [("language", .vStr "python")] []

/-- Graph for the attribute-search witness. -/
def g5 : Graph := ⟨.mk "" "" [] [t_attr], []⟩

/-- Sum of the counts of a histogram dict. -/
def sum_vals (l : List (Nat × Nat)) : Nat := (l.map (fun kv => kv.2)).sum

/-- Keys of a histogram dict. -/
def keys_of {κ : Type} (l : List (κ × Nat)) : List κ := l.map (fun kv => kv.1)

theorem treeSize_le_of_mem {c : ETree} {cs : List ETree} (hc : c ∈ cs) :
    treeSize c ≤ forestSize cs := by
  induction cs with
  | nil => simp at hc
  | cons d ds ih =>
    rcases List.mem_cons.mp hc with rfl | hmem
    · simp only [forestSize]
      omega
    · have := ih hmem
      simp only [forestSize]
      omega

/-- Induction over elements: to prove a property of every element it
suffices to prove it of an element whose children all satisfy it. -/
theorem etree_ind {P : ETree → Prop}
    (h : ∀ n ty a cs, (∀ c ∈ cs, P c) → P (.mk n ty a cs)) : ∀ t, P t
  | .mk n ty a cs => h n ty a cs (fun c hc => etree_ind h c)
termination_by t => treeSize t
decreasing_by
  have := treeSize_le_of_mem hc
  simp only [treeSize]
  omega

theorem search_recL_mem {keep : String → ETree → Bool} {cs : List ETree}
    (hcs : ∀ c ∈ cs, ∀ sp hit,
      hit ∈ search_rec keep sp c ↔ hit ∈ subtree_hits sp c ∧ keep hit.1 hit.2 = true) :
    ∀ pp hit, hit ∈ search_recL keep pp cs ↔
      hit ∈ subtree_hitsL pp cs ∧ keep hit.1 hit.2 = true := by
  induction cs with
  | nil => simp [search_recL, subtree_hitsL]
  | cons c ds ih =>
    intro pp hit
    simp only [search_recL, subtree_hitsL, List.mem_append]
    rw [hcs c (List.mem_cons_self _ _) _ hit,
      ih (fun d hd => hcs d (List.mem_cons_of_mem _ hd)) pp hit]
    tauto

/-- The depth-first search loop keeps exactly the subtree elements that
satisfy the predicate. -/
theorem search_rec_mem (keep : String → ETree → Bool) :
    ∀ t sp hit, hit ∈ search_rec keep sp t ↔
      hit ∈ subtree_hits sp t ∧ keep hit.1 hit.2 = true := by
  intro t
  induction t using etree_ind with
  | h n ty a cs ih =>
    intro sp hit
    simp only [search_rec, subtree_hits, List.mem_append]
    have hL := search_recL_mem (fun c hc sp1 hit1 => ih c hc sp1 hit1) sp hit
    rw [hL]
    cases hk : keep sp (.mk n ty a cs) with
    | true =>
      simp only [hk, if_true, List.mem_cons, List.not_mem_nil, or_false]
      constructor
      · rintro (rfl | ⟨h1, h2⟩)
        · exact ⟨Or.inl rfl, hk⟩
        · exact ⟨Or.inr h1, h2⟩
      · rintro ⟨rfl | h1, h2⟩
        · exact Or.inl rfl
        · exact Or.inr ⟨h1, h2⟩
    | false =>
      simp only [hk, Bool.false_eq_true, if_false, List.not_mem_nil, false_or,
        List.mem_cons]
      constructor
      · rintro ⟨h1, h2⟩
        exact ⟨Or.inr h1, h2⟩
      · rintro ⟨rfl | h1, h2⟩
        · rw [hk] at h2
          exact absurd h2 (by simp)
        · exact ⟨h1, h2⟩

/-- The filter loop passes exactly when every named filter finds its
attribute and matches its value. -/
theorem matches_all_filters_iff (E : RegexEngine) (t : ETree) :
    ∀ filters : List (String × PyVal),
      matches_all_filters E t filters = true ↔
        ∀ kv ∈ filters, ∃ av, attr_lookup t kv.1 = some av ∧
          attr_val_match E kv.2 av = true := by
  intro filters
  induction filters with
  | nil => simp [matches_all_filters]
  | cons kv rest ih =>
    obtain ⟨k, v⟩ := kv
    simp only [matches_all_filters]
    rcases hl : attr_lookup t k with _ | av
    · simp only [List.mem_cons]
      constructor
      · intro h
        exact absurd h (by simp)
      · intro h
        obtain ⟨av, hav, _⟩ := h (k, v) (Or.inl rfl)
        rw [hl] at hav
        exact absurd hav (by simp)
    · by_cases hm : attr_val_match E v av = true
      · simp only [hm, if_true, ih, List.mem_cons]
        constructor
        · intro h kv1 hkv1
          rcases hkv1 with rfl | hkv1
          · exact ⟨av, hl, hm⟩
          · exact h kv1 hkv1
        · intro h kv1 hkv1
          exact h kv1 (Or.inr hkv1)
      · have hm2 : attr_val_match E v av = false := by
          revert hm; cases attr_val_match E v av <;> simp
        simp only [hm2, Bool.false_eq_true, if_false, List.mem_cons]
        constructor
        · intro h
          exact absurd h (by simp)
        · intro h
          obtain ⟨av1, hav1, hm1⟩ := h (k, v) (Or.inl rfl)
          rw [hl] at hav1
          obtain rfl : av = av1 := by simpa using hav1
          rw [hm1] at hm2
          exact absurd hm2 (by simp)

theorem multi_go_spec (g : Graph) (af : List String) :
    ∀ (paths : List String) (r : MultiResult),
      (multi_go g af paths r).requested_count = r.requested_count ∧
      (multi_go g af paths r).found_count =
        r.found_count + (paths.filter (fun p => (findElementFromPath g p).isSome)).length ∧
      (multi_go g af paths r).not_found =
        r.not_found ++ paths.filter (fun p => (findElementFromPath g p).isNone) ∧
      (multi_go g af paths r).elements =
        r.elements ++ paths.filterMap (fun p =>
          (findElementFromPath g p).map (fun se => element_to_dict se.1 se.2 af)) := by
  intro paths
  induction paths with
  | nil => simp [multi_go]
  | cons p rest ih =>
    intro r
    simp only [multi_go]
    rcases hf : findElementFromPath g p with _ | se
    · have := ih { r with not_found := r.not_found ++ [p] }
      simp only [this.1, this.2.1, this.2.2.1, this.2.2.2]
      simp [hf, List.filter_cons, List.filterMap_cons]
    · have := ih { r with
        elements := r.elements ++ [element_to_dict se.1 se.2 af],
        found_count := r.found_count + 1 }
      simp only [this.1, this.2.1, this.2.2.1, this.2.2.2]
      simp [hf, List.filter_cons, List.filterMap_cons]
      omega

theorem mem_elem_internal_deps {g : Graph} {flag : Bool} {paths : List String}
    {p : String} {d : DepInfo} :
    d ∈ elem_internal_deps g flag paths p ↔
      ∃ a ∈ outgoingOf g p, (!flag && strContains a.dst extSeg) = false ∧
        a.dst ∈ paths ∧ d = assoc_to_dep a := by
  simp only [elem_internal_deps, List.mem_filterMap]
  constructor
  · rintro ⟨a, ha, hd⟩
    split at hd
    · simp at hd
    · split at hd
      · refine ⟨a, ha, by simp_all, by assumption, by simp_all⟩
      · simp at hd
  · rintro ⟨a, ha, hc, hmem, rfl⟩
    refine ⟨a, ha, ?_⟩
    rw [if_neg (by simp [hc]), if_pos hmem]

theorem mem_elem_outgoing_deps {g : Graph} {flag : Bool} {paths : List String}
    {p : String} {d : DepInfo} :
    d ∈ elem_outgoing_deps g flag paths p ↔
      ∃ a ∈ outgoingOf g p, (!flag && strContains a.dst extSeg) = false ∧
        a.dst ∉ paths ∧ d = assoc_to_dep a := by
  simp only [elem_outgoing_deps, List.mem_filterMap]
  constructor
  · rintro ⟨a, ha, hd⟩
    split at hd
    · simp at hd
    · split at hd
      · simp at hd
      · refine ⟨a, ha, by simp_all, by assumption, by simp_all⟩
  · rintro ⟨a, ha, hc, hmem, rfl⟩
    refine ⟨a, ha, ?_⟩
    rw [if_neg (by simp [hc]), if_neg hmem]

theorem mem_elem_incoming_deps {g : Graph} {flag : Bool} {paths : List String}
    {p : String} {d : DepInfo} :
    d ∈ elem_incoming_deps g flag paths p ↔
      ∃ a ∈ incomingOf g p, (!flag && strContains a.src extSeg) = false ∧
        a.src ∉ paths ∧ d = assoc_to_dep a := by
  simp only [elem_incoming_deps, List.mem_filterMap]
  constructor
  · rintro ⟨a, ha, hd⟩
    split at hd
    · simp at hd
    · split at hd
      · simp at hd
      · refine ⟨a, ha, by simp_all, by assumption, by simp_all⟩
  · rintro ⟨a, ha, hc, hmem, rfl⟩
    refine ⟨a, ha, ?_⟩
    rw [if_neg (by simp [hc]), if_neg hmem]

theorem elem_internal_deps_from {g : Graph} {flag : Bool} {paths : List String}
    {p : String} {d : DepInfo} (hd : d ∈ elem_internal_deps g flag paths p) :
    d.fromPath = p := by
  obtain ⟨a, ha, _, _, rfl⟩ := mem_elem_internal_deps.mp hd
  simp only [outgoingOf, List.mem_filter] at ha
  simpa [assoc_to_dep] using ha.2

theorem elem_outgoing_deps_from {g : Graph} {flag : Bool} {paths : List String}
    {p : String} {d : DepInfo} (hd : d ∈ elem_outgoing_deps g flag paths p) :
    d.fromPath = p := by
  obtain ⟨a, ha, _, _, rfl⟩ := mem_elem_outgoing_deps.mp hd
  simp only [outgoingOf, List.mem_filter] at ha
  simpa [assoc_to_dep] using ha.2

theorem elem_incoming_deps_to {g : Graph} {flag : Bool} {paths : List String}
    {p : String} {d : DepInfo} (hd : d ∈ elem_incoming_deps g flag paths p) :
    d.toPath = p := by
  obtain ⟨a, ha, _, _, rfl⟩ := mem_elem_incoming_deps.mp hd
  simp only [incomingOf, List.mem_filter] at ha
  simpa [assoc_to_dep] using ha.2

/-- The filter of a per-element flat map at one element path picks exactly
that element's contribution, when element paths are pairwise distinct. -/
theorem flatMap_filter_single (sel : DepInfo → String)
    (F : (String × ETree) → List DepInfo) :
    ∀ (sub : List (String × ETree)),
      (∀ e ∈ sub, ∀ d ∈ F e, sel d = e.1) →
      (sub.map (fun e => e.1)).Nodup →
      ∀ e0 ∈ sub,
        (sub.flatMap F).filter (fun d => sel d == e0.1) = F e0 := by
  intro sub
  induction sub with
  | nil => intro _ _ e0 he0; simp at he0
  | cons e rest ih =>
    intro hF hnd e0 he0
    simp only [List.flatMap_cons, List.filter_append]
    simp only [List.map_cons, List.nodup_cons] at hnd
    rcases List.mem_cons.mp he0 with rfl | hmem
    · have h1 : (F e0).filter (fun d => sel d == e0.1) = F e0 := by
        apply List.filter_eq_self.mpr
        intro d hd
        simp [hF e0 (List.mem_cons_self _ _) d hd]
      have h2 : (rest.flatMap F).filter (fun d => sel d == e0.1) = [] := by
        apply List.filter_eq_nil_iff.mpr
        intro d hd
        obtain ⟨e1, he1, hd1⟩ := List.mem_flatMap.mp hd
        have := hF e1 (List.mem_cons_of_mem _ he1) d hd1
        simp only [this, beq_iff_eq]
        intro hcon
        exact hnd.1 (hcon ▸ List.mem_map_of_mem (fun x => x.1) he1)
      rw [h1, h2, List.append_nil]
    · have h1 : (F e).filter (fun d => sel d == e0.1) = [] := by
        apply List.filter_eq_nil_iff.mpr
        intro d hd
        have := hF e (List.mem_cons_self _ _) d hd
        simp only [this, beq_iff_eq]
        intro hcon
        exact hnd.1 (hcon.symm ▸ List.mem_map_of_mem (fun x => x.1) hmem)
      rw [h1, List.nil_append]
      exact ih (fun e1 he1 => hF e1 (List.mem_cons_of_mem _ he1)) hnd.2 e0 hmem

/-- The internal/outgoing classification of one element's association list
partitions the kept associations: concatenating both classes permutes to
the whole kept list. -/
theorem filterMap_partition_perm {α β : Type} (f : α → β) (c1 : α → Bool)
    (pmem : α → Prop) [DecidablePred pmem] :
    ∀ l : List α,
      ((l.filterMap (fun a => if c1 a then none else if pmem a then some (f a) else none)) ++
        (l.filterMap (fun a => if c1 a then none else if pmem a then none else some (f a)))).Perm
      ((l.filter (fun a => !c1 a)).map f) := by
  intro l
  induction l with
  | nil => simp
  | cons a l ih =>
    by_cases h1 : c1 a = true
    · simpa [List.filterMap_cons, h1] using ih
    · have h1f : c1 a = false := by revert h1; cases c1 a <;> simp
      by_cases h2 : pmem a
      · simp only [List.filterMap_cons, h1f, Bool.false_eq_true, if_false, if_pos h2,
          List.filter_cons, h1f, Bool.not_false, if_pos rfl, List.map_cons,
          List.cons_append]
        exact ih.cons (f a)
      · simp only [List.filterMap_cons, h1f, Bool.false_eq_true, if_false, if_neg h2,
          List.filter_cons, Bool.not_false, if_pos rfl, List.map_cons]
        refine List.Perm.trans (List.perm_middle) (ih.cons (f a))

theorem sum_vals_bump (k : Nat) : ∀ l : List (Nat × Nat), sum_vals (bump k l) = sum_vals l + 1 := by
  intro l
  induction l with
  | nil => simp [bump, sum_vals]
  | cons kv rest ih =>
    obtain ⟨k1, v⟩ := kv
    by_cases h : (k == k1) = true
    · simp [bump, h, sum_vals]
      omega
    · have hf : (k == k1) = false := by revert h; cases k == k1 <;> simp
      simp only [bump, hf, Bool.false_eq_true, if_false]
      simp only [sum_vals, List.map_cons, List.sum_cons] at ih ⊢
      omega

theorem keys_of_bump (k : Nat) : ∀ (l : List (Nat × Nat)) (k1 : Nat),
    k1 ∈ keys_of (bump k l) → k1 = k ∨ k1 ∈ keys_of l := by
  intro l
  induction l with
  | nil => simp [bump, keys_of]
  | cons kv rest ih =>
    obtain ⟨k2, v⟩ := kv
    intro k1 h
    by_cases hk : (k == k2) = true
    · simp only [bump, hk, if_true, keys_of, List.map_cons, List.mem_cons] at h ⊢
      tauto
    · have hf : (k == k2) = false := by revert hk; cases k == k2 <;> simp
      simp only [bump, hf, Bool.false_eq_true, if_false, keys_of, List.map_cons,
        List.mem_cons] at h ⊢
      rcases h with rfl | h
      · exact Or.inr (Or.inl rfl)
      · rcases ih k1 h with h1 | h1
        · exact Or.inl h1
        · exact Or.inr (Or.inr h1)

theorem build_children_pres (g : Graph) (maxD : Int) (ic : Bool) :
    ∀ cs : List ETree,
      (∀ c ∈ cs, ∀ sp (d : Nat) (st : OvStats), ((d : Int) ≤ maxD ∨ d = 0) →
        (sum_vals st.depth_counts = st.total →
          sum_vals (build_tree_structure g maxD ic sp d c st).2.depth_counts =
            (build_tree_structure g maxD ic sp d c st).2.total) ∧
        (∀ k ∈ keys_of (build_tree_structure g maxD ic sp d c st).2.depth_counts,
          k ∈ keys_of st.depth_counts ∨ (0 ≤ maxD → (k : Int) ≤ maxD))) →
      ∀ pp (d : Nat) (st : OvStats), ((d : Int) ≤ maxD) →
        (sum_vals st.depth_counts = st.total →
          sum_vals (build_children g maxD ic pp d cs st).2.depth_counts =
            (build_children g maxD ic pp d cs st).2.total) ∧
        (∀ k ∈ keys_of (build_children g maxD ic pp d cs st).2.depth_counts,
          k ∈ keys_of st.depth_counts ∨ (0 ≤ maxD → (k : Int) ≤ maxD)) := by
  intro cs
  induction cs with
  | nil =>
    intro _ pp d st _
    exact ⟨fun h => h, fun k hk => Or.inl hk⟩
  | cons c rest ih =>
    intro hcs pp d st hd
    have hc := hcs c (List.mem_cons_self _ _) (joinPath pp c.name) d st (Or.inl hd)
    have hrest := ih (fun c1 hc1 => hcs c1 (List.mem_cons_of_mem _ hc1)) pp d
      (build_tree_structure g maxD ic (joinPath pp c.name) d c st).2 hd
    constructor
    · intro h0
      simp only [build_children]
      exact hrest.1 (hc.1 h0)
    · intro k hk
      simp only [build_children] at hk
      rcases hrest.2 k hk with h1 | h1
      · exact hc.2 k h1
      · exact Or.inr h1

theorem build_tree_pres (g : Graph) (maxD : Int) (ic : Bool) :
    ∀ t : ETree, ∀ sp (d : Nat) (st : OvStats), ((d : Int) ≤ maxD ∨ d = 0) →
      (sum_vals st.depth_counts = st.total →
        sum_vals (build_tree_structure g maxD ic sp d t st).2.depth_counts =
          (build_tree_structure g maxD ic sp d t st).2.total) ∧
      (∀ k ∈ keys_of (build_tree_structure g maxD ic sp d t st).2.depth_counts,
        k ∈ keys_of st.depth_counts ∨ (0 ≤ maxD → (k : Int) ≤ maxD)) := by
  intro t
  induction t using etree_ind with
  | h n ty a cs ih =>
    intro sp d st hd
    by_cases hlt : (d : Int) < maxD
    · have heq : (build_tree_structure g maxD ic sp d (.mk n ty a cs) st).2 =
          (build_children g maxD ic sp (d + 1) cs
            ⟨st.total + 1, bump d st.depth_counts,
              bump (type_or_unknown (.mk n ty a cs)) st.type_counts⟩).2 := by
        simp only [build_tree_structure, hlt, if_true]
      have hch := build_children_pres g maxD ic cs ih sp (d + 1)
        ⟨st.total + 1, bump d st.depth_counts,
          bump (type_or_unknown (.mk n ty a cs)) st.type_counts⟩
        (by push_cast; omega)
      rw [heq]
      constructor
      · intro h0
        exact hch.1 (by simpa [sum_vals_bump] using h0)
      · intro k hk
        rcases hch.2 k hk with h1 | h1
        · rcases keys_of_bump d st.depth_counts k h1 with rfl | h2
          · exact Or.inr (fun _ => le_of_lt hlt)
          · exact Or.inl h2
        · exact Or.inr h1
    · have heq : (build_tree_structure g maxD ic sp d (.mk n ty a cs) st).2 =
          ⟨st.total + 1, bump d st.depth_counts,
            bump (type_or_unknown (.mk n ty a cs)) st.type_counts⟩ := by
        simp only [build_tree_structure, hlt, if_false]
      rw [heq]
      constructor
      · intro h0
        simpa [sum_vals_bump] using h0
      · intro k hk
        rcases keys_of_bump d st.depth_counts k hk with rfl | h2
        · refine Or.inr (fun h3 => ?_)
          rcases hd with h4 | h4
          · exact h4
          · rw [h4]
            push_cast
            exact h3
        · exact Or.inl h2

theorem filterMap_two_conds {α β : Type} (f : α → β) (c1 : α → Bool)
    (pmem : α → Prop) [DecidablePred pmem] :
    ∀ l : List α,
      l.filterMap (fun a => if c1 a then none else if pmem a then none else some (f a)) =
        (l.filter (fun a => !c1 a && !(decide (pmem a)))).map f := by
  intro l
  induction l with
  | nil => simp
  | cons a l ih =>
    by_cases h1 : c1 a = true
    · simp [List.filterMap_cons, h1, List.filter_cons, ih]
    · have h1f : c1 a = false := by revert h1; cases c1 a <;> simp
      by_cases h2 : pmem a
      · simp [List.filterMap_cons, h1f, h2, List.filter_cons, ih]
      · simp [List.filterMap_cons, h1f, h2, List.filter_cons, ih]

/-- Characterization of the three dependency collections of
get_subtree_dependencies at each subtree element, for either value of
include_external: the internal and outgoing entries with that element as
source concatenate to a permutation of its kept outgoing associations, and
the incoming entries with that element as target are exactly its kept
incoming associations from outside the subtree. -/
theorem subtree_deps_char (g : Graph) (root_path : String) (max_depth : Option Int)
    (flag : Bool) (se : String × ETree)
    (hres : findElementFromPath g root_path = some se)
    (hnd : ((collect_subtree max_depth se.1 0 se.2).map (fun e => e.1)).Nodup) :
    ∀ e0 ∈ collect_subtree max_depth se.1 0 se.2,
      ((((get_subtree_dependencies g root_path flag max_depth).internal_dependencies.filter
          (fun d => d.fromPath == e0.1)) ++
        ((get_subtree_dependencies g root_path flag max_depth).outgoing_dependencies.filter
          (fun d => d.fromPath == e0.1))).Perm
        (((outgoingOf g e0.1).filter
          (fun a => !(!flag && strContains a.dst extSeg))).map assoc_to_dep)) ∧
      ((get_subtree_dependencies g root_path flag max_depth).incoming_dependencies.filter
          (fun d => d.toPath == e0.1) =
        ((incomingOf g e0.1).filter
          (fun a => !(!flag && strContains a.src extSeg) &&
            !(decide (a.src ∈ (collect_subtree max_depth se.1 0 se.2).map (fun e => e.1))))).map
          assoc_to_dep) := by
  intro e0 he0
  have hr : get_subtree_dependencies g root_path flag max_depth =
      { subtree_elements := (collect_subtree max_depth se.1 0 se.2).map
          (fun e => element_to_dict e.1 e.2 []),
        internal_dependencies := (collect_subtree max_depth se.1 0 se.2).flatMap
          (fun e => elem_internal_deps g flag
            ((collect_subtree max_depth se.1 0 se.2).map (fun e => e.1)) e.1),
        incoming_dependencies := (collect_subtree max_depth se.1 0 se.2).flatMap
          (fun e => elem_incoming_deps g flag
            ((collect_subtree max_depth se.1 0 se.2).map (fun e => e.1)) e.1),
        outgoing_dependencies := (collect_subtree max_depth se.1 0 se.2).flatMap
          (fun e => elem_outgoing_deps g flag
            ((collect_subtree max_depth se.1 0 se.2).map (fun e => e.1)) e.1) } := by
    unfold get_subtree_dependencies
    rw [hres]
  rw [hr]
  constructor
  · have hint := flatMap_filter_single DepInfo.fromPath
      (fun e => elem_internal_deps g flag
        ((collect_subtree max_depth se.1 0 se.2).map (fun e => e.1)) e.1)
      (collect_subtree max_depth se.1 0 se.2)
      (fun e _ d hd => elem_internal_deps_from hd) hnd e0 he0
    have hout := flatMap_filter_single DepInfo.fromPath
      (fun e => elem_outgoing_deps g flag
        ((collect_subtree max_depth se.1 0 se.2).map (fun e => e.1)) e.1)
      (collect_subtree max_depth se.1 0 se.2)
      (fun e _ d hd => elem_outgoing_deps_from hd) hnd e0 he0
    simp only at hint hout
    rw [hint, hout]
    exact filterMap_partition_perm assoc_to_dep
      (fun a => !flag && strContains a.dst extSeg)
      (fun a => a.dst ∈ (collect_subtree max_depth se.1 0 se.2).map (fun e => e.1))
      (outgoingOf g e0.1)
  · have hin := flatMap_filter_single DepInfo.toPath
      (fun e => elem_incoming_deps g flag
        ((collect_subtree max_depth se.1 0 se.2).map (fun e => e.1)) e.1)
      (collect_subtree max_depth se.1 0 se.2)
      (fun e _ d hd => elem_incoming_deps_to hd) hnd e0 he0
    simp only at hin
    rw [hin]
    exact filterMap_two_conds assoc_to_dep
      (fun a => !flag && strContains a.src extSeg)
      (fun a => a.src ∈ (collect_subtree max_depth se.1 0 se.2).map (fun e => e.1))
      (incomingOf g e0.1)

theorem has_key_dict_set (k k1 : String) (v : DVal) :
    ∀ d : List (String × DVal),
      has_key (dict_set d k v) k1 = ((k1 == k) || has_key d k1) := by
  intro d
  unfold dict_set
  by_cases hp : d.any (fun kv => kv.1 == k) = true
  · rw [if_pos hp]
    have hkeys : ∀ d1 : List (String × DVal),
        has_key (d1.map (fun kv => if kv.1 == k then (k, v) else kv)) k1 =
          has_key d1 k1 := by
      intro d1
      induction d1 with
      | nil => simp [has_key]
      | cons kv rest ih =>
        by_cases hk : (kv.1 == k) = true
        · simp only [has_key, List.map_cons, List.any_cons, if_pos hk] at ih ⊢
          rw [ih]
          have : kv.1 = k := by simpa using hk
          rw [this]
        · have hkf : (kv.1 == k) = false := by revert hk; cases kv.1 == k <;> simp
          simp only [has_key, List.map_cons, List.any_cons, hkf, Bool.false_eq_true,
            if_false] at ih ⊢
          rw [ih]
    rw [hkeys d]
    by_cases h1 : (k1 == k) = true
    · have : k1 = k := by simpa using h1
      subst this
      simp only [h1, Bool.true_or]
      unfold has_key
      rw [hp]
    · have h1f : (k1 == k) = false := by revert h1; cases k1 == k <;> simp
      rw [h1f, Bool.false_or]
  · rw [if_neg hp]
    unfold has_key
    rw [List.any_append]
    simp [Bool.or_comm, BEq.comm]

theorem element_to_dict_fold_key (t : ETree) (k1 : String) :
    ∀ (af : List String) (d : List (String × DVal)),
      has_key
        (af.foldl
          (fun d f =>
            match attr_lookup t f with
            | some v => dict_set d f (.dVal v)
            | none => d) d) k1 = true ↔
        has_key d k1 = true ∨ (k1 ∈ af ∧ (attr_lookup t k1).isSome = true) := by
  intro af
  induction af with
  | nil => simp
  | cons f rest ih =>
    intro d
    simp only [List.foldl_cons]
    rcases hl : attr_lookup t f with _ | v
    · rw [ih d]
      constructor
      · rintro (h | ⟨h1, h2⟩)
        · exact Or.inl h
        · exact Or.inr ⟨List.mem_cons_of_mem _ h1, h2⟩
      · rintro (h | ⟨h1, h2⟩)
        · exact Or.inl h
        · rcases List.mem_cons.mp h1 with rfl | h3
          · rw [hl] at h2
            simp at h2
          · exact Or.inr ⟨h3, h2⟩
    · rw [ih (dict_set d f (.dVal v))]
      rw [has_key_dict_set]
      constructor
      · rintro (h | ⟨h1, h2⟩)
        · rcases Bool.or_eq_true_iff.mp h with h3 | h3
          · have : k1 = f := by simpa using h3
            subst this
            exact Or.inr ⟨List.mem_cons_self _ _, by rw [hl]; rfl⟩
          · exact Or.inl h3
        · exact Or.inr ⟨List.mem_cons_of_mem _ h1, h2⟩
      · rintro (h | ⟨h1, h2⟩)
        · exact Or.inl (by rw [h, Bool.or_true])
        · rcases List.mem_cons.mp h1 with rfl | h3
          · exact Or.inl (by simp)
          · exact Or.inr ⟨h3, h2⟩

/-- C1 counterexample: the sgraph_get_root_element operation of server.py
has no exception handler around its projection step, so at the concrete
input of a cached model whose rootNode is missing the operation evaluates
to a propagated exception (the Except error case), not to a plain success
or error-message value — refuting the claim that no operation ever lets an
exception propagate past its boundary. -/
theorem C1_counterexample :
    sgraph_get_root_element (fun _ => some ⟨none, []⟩) "m0" =
      Except.error "AttributeError: NoneType has no attribute name" ∧
    (sgraph_get_root_element (fun _ => some ⟨none, []⟩) "m0").isOk = false :=
  ⟨rfl, rfl⟩

/-- C1 (amended): an operation whose body is wrapped in the catch-all
handler — here sgraph_search_elements_by_name, for every model map, regex
engine and input, including inputs that make an inner step raise (a
missing root, or a pattern whose glob fallback fails to compile) — always
returns a plain value: either a success payload or an error-message value,
and never lets an exception propagate past the boundary.  The operations
without a handler (get_root_element and the other projection endpoints) do
propagate, as the counterexample shows. -/
theorem C1_wrapped_boundary_returns_plain_result :
    ∀ (models : String → Option LoadedModel) (E : RegexEngine)
      (model_id pattern : String) (element_type scope_path : Option String),
      ∃ out, sgraph_search_elements_by_name_tool models E model_id pattern
        element_type scope_path = Except.ok out := by
  intro models E mid pat ty sc
  unfold sgraph_search_elements_by_name_tool
  split
  · exact ⟨_, rfl⟩
  · split
    · exact ⟨_, rfl⟩
    · exact ⟨_, rfl⟩

/-- C2: for every graph (cyclic association edges included), start path,
direction and max depth, the dependency chain traversal terminates — the
recursion is well-founded on the number of not-yet-visited paths, which is
what makes get_dependency_chain a total function — and each element is
expanded at most once: the expansion log, appended to exactly when an
element passes the global visited-set check, has no duplicates. -/
theorem C2_dependency_chain_expands_each_element_at_most_once
    (g : Graph) (element_path : String) (direction : ChainDir)
    (max_depth : Option Int) :
    (get_dependency_chain g element_path direction max_depth).expanded_log.Nodup := by
  unfold get_dependency_chain
  split
  · simp
  · exact ((trav_visit g direction max_depth _ 0 [] ⟨∅, [], [], []⟩
      (find_mem_univ (by assumption))).2.2 List.nodup_nil (by simp)).1

/-- C7: a search whose scope path does not resolve returns the empty list
rather than an error; a search whose compiled pattern matches no element
of the scoped subtree also returns the empty list; and a dependency chain
whose start path does not resolve returns the full result shape carrying
the requested root, direction and max depth with empty chain and
dependencies, not an error. -/
theorem C7_unresolvable_paths_give_empty_results (g : Graph)
    (sp element_path pattern : String) (E : RegexEngine)
    (element_type : Option String) (scope : Option String) (direction : ChainDir)
    (max_depth : Option Int) :
    (findElementFromPath g sp = none →
      search_elements_by_name E g pattern element_type (some sp) = .ok []) ∧
    (∀ se f, resolve_start g scope = some se → E.compile pattern = some f →
      (∀ hit ∈ subtree_hits se.1 se.2,
        name_type_keep f element_type hit.1 hit.2 = false) →
      search_elements_by_name E g pattern element_type scope = .ok []) ∧
    (findElementFromPath g element_path = none →
      (get_dependency_chain g element_path direction max_depth).root_element =
          element_path ∧
      (get_dependency_chain g element_path direction max_depth).direction = direction ∧
      (get_dependency_chain g element_path direction max_depth).max_depth = max_depth ∧
      (get_dependency_chain g element_path direction max_depth).chain = [] ∧
      (get_dependency_chain g element_path direction max_depth).all_dependencies = []) := by
  refine ⟨?_, ?_, ?_⟩
  · intro h
    unfold search_elements_by_name
    split
    · rfl
    · next se heq =>
      have heq2 : findElementFromPath g sp = some se := heq
      rw [h] at heq2
      exact absurd heq2 (by simp)
  · intro se f hres hc hnone
    unfold search_elements_by_name
    rw [hres, hc]
    have hnil : search_rec (name_type_keep f element_type) se.1 se.2 = [] := by
      apply List.eq_nil_iff_forall_not_mem.mpr
      intro hit hmem2
      have h2 := (search_rec_mem (name_type_keep f element_type) se.2 se.1 hit).mp hmem2
      rw [hnone hit h2.1] at h2
      exact absurd h2.2 (by simp)
    show Except.ok (search_rec (name_type_keep f element_type) se.1 se.2) =
      Except.ok []
    rw [hnil]
  · intro h
    unfold get_dependency_chain
    split
    · exact ⟨rfl, rfl, rfl, rfl, rfl⟩
    · next se heq =>
      rw [h] at heq
      exact absurd heq (by simp)

/-- C7 witness: on the one-child graph, the scope path nope does not
resolve and the scoped search returns the empty list; no element name
contains the pattern zz, so that search also returns the empty list; and
the dependency chain from nope returns the full shape with empty chain and
dependencies. -/
theorem C7_witness :
    (findElementFromPath g0 "nope" = none) ∧
    (search_elements_by_name E0 g0 "zz" none (some "nope") = .ok []) ∧
    (search_elements_by_name E0 g0 "zz" none none = .ok []) ∧
    ((get_dependency_chain g0 "nope" ChainDir.outgoing none).chain = [] ∧
      (get_dependency_chain g0 "nope" ChainDir.outgoing none).all_dependencies = []) := by
  have h := C7_unresolvable_paths_give_empty_results g0 "nope" "nope" "zz" E0 none
    none ChainDir.outgoing none
  refine ⟨rfl, h.1 rfl, ?_, (h.2.2 rfl).2.2.2⟩
  exact h.2.1 ("", .mk "" "" [] [t_xa]) (fun n => strContains n "zz") rfl rfl (by decide)

/-- C8: for every ordered list of input paths, duplicates included,
get_multiple_elements resolves each path independently with no early
termination: requested_count is the input length, not_found is exactly the
sublist of unresolvable paths in order, the projected elements are exactly
the resolvable ones in order, and found_count plus the not_found length
equals requested_count. -/
theorem C8_multiple_elements_counts (g : Graph) (element_paths : List String)
    (additional_fields : List String) :
    (get_multiple_elements g element_paths additional_fields).found_count +
        (get_multiple_elements g element_paths additional_fields).not_found.length =
      (get_multiple_elements g element_paths additional_fields).requested_count ∧
    (get_multiple_elements g element_paths additional_fields).requested_count =
      element_paths.length ∧
    (get_multiple_elements g element_paths additional_fields).not_found =
      element_paths.filter (fun p => (findElementFromPath g p).isNone) ∧
    (get_multiple_elements g element_paths additional_fields).elements =
      element_paths.filterMap (fun p => (findElementFromPath g p).map
        (fun se => element_to_dict se.1 se.2 additional_fields)) := by
  have h := multi_go_spec g additional_fields element_paths ⟨element_paths.length, 0, [], []⟩
  unfold get_multiple_elements
  refine ⟨?_, h.1, by simpa using h.2.2.1, by simpa using h.2.2.2⟩
  rw [h.1, h.2.1]
  have hnf : (multi_go g additional_fields element_paths
      ⟨element_paths.length, 0, [], []⟩).not_found.length =
      (element_paths.filter (fun p => (findElementFromPath g p).isNone)).length := by
    rw [h.2.2.1]
    simp
  rw [hnf]
  have hsplit := (List.filter_append_perm
    (fun p => (findElementFromPath g p).isSome) element_paths).length_eq
  rw [List.length_append] at hsplit
  have hcongr : element_paths.filter (fun p => (findElementFromPath g p).isNone) =
      element_paths.filter (fun p => !(findElementFromPath g p).isSome) := by
    apply List.filter_congr
    intro p _
    cases findElementFromPath g p <;> simp
  rw [hcongr]
  have e1 : (⟨element_paths.length, 0, [], []⟩ : MultiResult).found_count = 0 := rfl
  have e2 : (⟨element_paths.length, 0, [], []⟩ : MultiResult).requested_count =
    element_paths.length := rfl
  rw [e1, e2]
  omega

/-- C9 (amended): for every graph and max depth, the overview summary
counts every element exactly once at the depth it is visited, so the sum
of the depth histogram equals total_elements; and whenever max_depth is
nonnegative every histogram key is at most max_depth, because children are
recursed into only while the current depth is strictly below max_depth.
(For a negative max_depth the root is still counted at depth 0, so the key
bound fails there — see the counterexample.) -/
theorem C9_overview_summary (g : Graph) (max_depth : Int) (include_counts : Bool) :
    sum_vals (get_model_overview g max_depth include_counts).depth_counts =
      (get_model_overview g max_depth include_counts).total_elements ∧
    (0 ≤ max_depth →
      ∀ k ∈ keys_of (get_model_overview g max_depth include_counts).depth_counts,
        (k : Int) ≤ max_depth) := by
  have h := build_tree_pres g max_depth include_counts g.root g.root.name 0 ⟨0, [], []⟩
    (Or.inr rfl)
  refine ⟨h.1 (by simp [sum_vals]), fun hm k hk => ?_⟩
  rcases h.2 k hk with h1 | h1
  · simp [keys_of] at h1
  · exact h1 hm

/-- C9 witness: on the one-child graph with the default max depth 3, the
depth histogram sums to the total and every key is at most 3. -/
theorem C9_witness :
    ((0 : Int) ≤ 3) ∧
    (sum_vals (get_model_overview g0 3 true).depth_counts =
        (get_model_overview g0 3 true).total_elements ∧
      ∀ k ∈ keys_of (get_model_overview g0 3 true).depth_counts, (k : Int) ≤ 3) :=
  ⟨by decide,
    ⟨(C9_overview_summary g0 3 true).1, (C9_overview_summary g0 3 true).2 (by decide)⟩⟩

/-- C9 counterexample: with max_depth -1 (a value the tool signature
admits) on a single-element graph, the summary histogram holds the key 0,
which exceeds max_depth; so the claim as stated, quantified over every
max_depth, is false. -/
theorem C9_counterexample :
    keys_of (get_model_overview ⟨.mk "" "" [] [], []⟩ (-1) true).depth_counts = [0] ∧
    ¬ ((0 : Int) ≤ -1) :=
  ⟨rfl, by decide⟩

/-- C10 (amended): in the element projection, the four base keys (name,
path, type, child_paths) are always present; any other requested
additional field is present in the projected dictionary exactly when it is
requested and the element has an attribute of that name, and a requested
field absent on the element is silently omitted.  A requested field that
collides with a base key is present even when the element lacks the
attribute — see the counterexample. -/
theorem C10_projection_field_keys (sp : String) (t : ETree)
    (additional_fields : List String) (f : String) :
    (has_key (element_to_dict sp t []) f = true ↔
      f = "name" ∨ f = "path" ∨ f = "type" ∨ f = "child_paths") ∧
    ((f ≠ "name" ∧ f ≠ "path" ∧ f ≠ "type" ∧ f ≠ "child_paths") →
      (has_key (element_to_dict sp t additional_fields) f = true ↔
        f ∈ additional_fields ∧ (attr_lookup t f).isSome = true)) := by
  constructor
  · simp only [element_to_dict, List.foldl_nil, has_key, List.any_cons, List.any_nil,
      Bool.or_eq_true, beq_iff_eq]
    constructor
    · rintro (h | h | h | h | h)
      · exact Or.inl h.symm
      · exact Or.inr (Or.inl h.symm)
      · exact Or.inr (Or.inr (Or.inl h.symm))
      · exact Or.inr (Or.inr (Or.inr h.symm))
      · exact absurd h (by simp)
    · rintro (rfl | rfl | rfl | rfl)
      · exact Or.inl rfl
      · exact Or.inr (Or.inl rfl)
      · exact Or.inr (Or.inr (Or.inl rfl))
      · exact Or.inr (Or.inr (Or.inr (Or.inl rfl)))
  · rintro ⟨h1, h2, h3, h4⟩
    unfold element_to_dict
    rw [element_to_dict_fold_key]
    have hb2 : ¬ (has_key [("name", DVal.dStr t.name), ("path", DVal.dStr sp),
        ("type", DVal.dStr t.etype),
        ("child_paths", DVal.dStrList (child_paths sp t))] f = true) := by
      simp only [has_key, List.any_eq_true, beq_iff_eq]
      rintro ⟨kv, hkv, hkf⟩
      fin_cases hkv <;> simp_all
    cases hhk : has_key [("name", DVal.dStr t.name), ("path", DVal.dStr sp),
        ("type", DVal.dStr t.etype),
        ("child_paths", DVal.dStrList (child_paths sp t))] f
    · simp [hhk]
    · exact absurd hhk hb2

/-- C10 witness: the requested field language is present in the projection
of an element carrying that attribute, and would be reported present
exactly when the attribute exists. -/
theorem C10_witness :
    ("language" ≠ "name" ∧ "language" ≠ "path" ∧ "language" ≠ "type" ∧
      "language" ≠ "child_paths") ∧
    (has_key (element_to_dict "n1" t_attr ["language"]) "language" = true ↔
      "language" ∈ ["language"] ∧ (attr_lookup t_attr "language").isSome = true) :=
  ⟨by decide, (C10_projection_field_keys "n1" t_attr ["language"] "language").2 (by decide)⟩

/-- C10 counterexample: requesting the additional field child_paths on an
element that has no such attribute still yields a projected dictionary
containing the key child_paths (it is a base projection key), refuting the
claim that a requested field name is included if and only if the element
has an attribute of that name. -/
theorem C10_counterexample :
    has_key (element_to_dict "xa" t_xa ["child_paths"]) "child_paths" = true ∧
    (attr_lookup t_xa "child_paths").isSome = false :=
  ⟨rfl, rfl⟩

/-- C4 (amended): in the sgraph_helper implementation behind server.py,
the pattern is compiled as a regular expression and exactly when that
compilation fails the glob translation (star to dot-star, question mark to
dot) is compiled instead — compile_with_glob is that selection written
from the claim — and an element of the scoped subtree is in the result
exactly when the selected compiled pattern searches (not anchors) its name
and the optional exact type filter agrees.  When both compilations fail
the call raises.  The SearchService implementation of server_modular.py
instead escapes an uncompilable pattern to a literal, so the glob rewrite
is unreachable there — see the counterexample. -/
theorem C4_helper_search_glob_fallback (E : RegexEngine) (g : Graph)
    (pattern : String) (element_type : Option String) (scope_path : Option String)
    (se : String × ETree) (hres : resolve_start g scope_path = some se) :
    (∀ f, compile_with_glob E pattern = some f →
      ∃ l, search_elements_by_name E g pattern element_type scope_path = .ok l ∧
        ∀ hit, hit ∈ l ↔ (hit ∈ subtree_hits se.1 se.2 ∧ f hit.2.name = true ∧
          ∀ ty, element_type = some ty → hit.2.etype = ty)) ∧
    (compile_with_glob E pattern = none →
      search_elements_by_name E g pattern element_type scope_path =
        .error "re.error") := by
  have hmain : ∀ f0, (∀ hit, hit ∈ search_rec (name_type_keep f0 element_type) se.1 se.2 ↔
      (hit ∈ subtree_hits se.1 se.2 ∧ f0 hit.2.name = true ∧
        ∀ ty, element_type = some ty → hit.2.etype = ty)) := by
    intro f0 hit
    rw [search_rec_mem (name_type_keep f0 element_type) se.2 se.1 hit]
    unfold name_type_keep
    rcases element_type with _ | ty0
    · simp
    · simp only [Bool.and_eq_true, beq_iff_eq, Option.some.injEq]
      constructor
      · rintro ⟨hsub, hf, hty⟩
        exact ⟨hsub, hf, fun ty h => h ▸ hty⟩
      · rintro ⟨hsub, hf, hty⟩
        exact ⟨hsub, hf, hty ty0 rfl⟩
  unfold search_elements_by_name
  rw [hres]
  rcases hc : E.compile pattern with _ | f0
  · rcases hg : E.compile (glob_translate pattern) with _ | f1
    · constructor
      · intro f hf
        unfold compile_with_glob at hf
        rw [hc, hg] at hf
        exact absurd hf (by simp)
      · intro _
        rfl
    · constructor
      · intro f hf
        unfold compile_with_glob at hf
        rw [hc, hg] at hf
        obtain rfl : f1 = f := by simpa using hf
        exact ⟨_, rfl, hmain f1⟩
      · intro hf
        unfold compile_with_glob at hf
        rw [hc, hg] at hf
        exact absurd hf (by simp)
  · constructor
    · intro f hf
      unfold compile_with_glob at hf
      rw [hc] at hf
      obtain rfl : f0 = f := by simpa using hf
      exact ⟨_, rfl, hmain f0⟩
    · intro hf
      unfold compile_with_glob at hf
      rw [hc] at hf
      exact absurd hf (by simp)

/-- C4 witness: on the one-child graph with the pattern dot-star-a, which
compiles directly, the helper search answers exactly the subtree elements
whose name the compiled pattern searches. -/
theorem C4_witness :
    resolve_start g0 none = some ("", ETree.mk "" "" [] [t_xa]) ∧
    compile_with_glob E0 ".*a" = some (fun n => strContains n "a") ∧
    (∃ l, search_elements_by_name E0 g0 ".*a" none none = .ok l ∧
      ∀ hit, hit ∈ l ↔ (hit ∈ subtree_hits "" (ETree.mk "" "" [] [t_xa]) ∧
        strContains hit.2.name "a" = true ∧
        ∀ ty, (none : Option String) = some ty → hit.2.etype = ty)) :=
  ⟨rfl, rfl,
    (C4_helper_search_glob_fallback E0 g0 ".*a" none none
      ("", ETree.mk "" "" [] [t_xa]) rfl).1 (fun n => strContains n "a") rfl⟩

/-- C4 counterexample: the pattern star-a fails to compile, and in the
SearchService implementation the escaped literal is compiled instead of
the glob translation: the search returns no elements, while the glob
fallback that the claim prescribes (and that the sgraph_helper
implementation applies) matches the element named xa. -/
theorem C4_counterexample :
    E0.compile "*a" = none ∧
    svc_search_elements_by_name E0 g0 "*a" none none = .ok [] ∧
    search_elements_by_name E0 g0 "*a" none none = .ok [("xa", t_xa)] :=
  ⟨rfl, rfl, rfl⟩

/-- C5: for every regex engine, graph, filter conjunction and scope that
resolves, an element of the scoped subtree is in the attribute-search
result exactly when, for every named filter, the element has the named
attribute and the filter matches: for a string expected value against a
string actual value by regex search of the expected value (exact string
equality when the expected value does not compile), and by exact equality
for every other pairing; lacking any named attribute rejects the
element. -/
theorem C5_attribute_search_semantics (E : RegexEngine) (g : Graph)
    (attribute_filters : List (String × PyVal)) (scope_path : Option String)
    (se : String × ETree) (hres : resolve_start g scope_path = some se) :
    ∀ hit, hit ∈ search_elements_by_attributes E g attribute_filters scope_path ↔
      (hit ∈ subtree_hits se.1 se.2 ∧
        ∀ kv ∈ attribute_filters, ∃ av, attr_lookup hit.2 kv.1 = some av ∧
          attr_val_match E kv.2 av = true) := by
  intro hit
  unfold search_elements_by_attributes
  rw [hres]
  rw [search_rec_mem (fun _ t => matches_all_filters E t attribute_filters) se.2 se.1 hit]
  rw [matches_all_filters_iff]

/-- C5 witness: the element carrying the attribute language set to python
is found by the filter demanding language python, over the whole graph. -/
theorem C5_witness :
    resolve_start g5 none = some ("", ETree.mk "" "" [] [t_attr]) ∧
    (("n1", t_attr) ∈
        search_elements_by_attributes E0 g5 [("language", .vStr "python")] none ↔
      (("n1", t_attr) ∈ subtree_hits "" (ETree.mk "" "" [] [t_attr]) ∧
        ∀ kv ∈ [(("language" : String), PyVal.vStr "python")],
          ∃ av, attr_lookup t_attr kv.1 = some av ∧
            attr_val_match E0 kv.2 av = true)) :=
  ⟨rfl, C5_attribute_search_semantics E0 g5 [("language", .vStr "python")] none
    ("", ETree.mk "" "" [] [t_attr]) rfl ("n1", t_attr)⟩

/-- C3: with include_external true, every internal dependency of
get_subtree_dependencies has both its source and target paths among the
paths of the returned subtree elements, and for each subtree element the
internal and outgoing entries bearing it as source are together a
permutation of its full projected outgoing association list — the union
of internal and outgoing restricted to the element equals its full
outgoing edge set.  Path uniqueness within the subtree (spec invariant a)
is assumed. -/
theorem C3_subtree_dependency_endpoints (g : Graph) (root_path : String)
    (max_depth : Option Int) (se : String × ETree)
    (hres : findElementFromPath g root_path = some se)
    (hnd : ((collect_subtree max_depth se.1 0 se.2).map (fun e => e.1)).Nodup) :
    (get_subtree_dependencies g root_path true max_depth).subtree_elements =
        (collect_subtree max_depth se.1 0 se.2).map
          (fun e => element_to_dict e.1 e.2 []) ∧
    (∀ d ∈ (get_subtree_dependencies g root_path true max_depth).internal_dependencies,
        d.fromPath ∈ (collect_subtree max_depth se.1 0 se.2).map (fun e => e.1) ∧
        d.toPath ∈ (collect_subtree max_depth se.1 0 se.2).map (fun e => e.1)) ∧
    (∀ e0 ∈ collect_subtree max_depth se.1 0 se.2,
        (((get_subtree_dependencies g root_path true max_depth).internal_dependencies.filter
            (fun d => d.fromPath == e0.1)) ++
          ((get_subtree_dependencies g root_path true
              max_depth).outgoing_dependencies.filter
            (fun d => d.fromPath == e0.1))).Perm
          ((outgoingOf g e0.1).map assoc_to_dep)) := by
  have hr : get_subtree_dependencies g root_path true max_depth =
      { subtree_elements := (collect_subtree max_depth se.1 0 se.2).map
          (fun e => element_to_dict e.1 e.2 []),
        internal_dependencies := (collect_subtree max_depth se.1 0 se.2).flatMap
          (fun e => elem_internal_deps g true
            ((collect_subtree max_depth se.1 0 se.2).map (fun e => e.1)) e.1),
        incoming_dependencies := (collect_subtree max_depth se.1 0 se.2).flatMap
          (fun e => elem_incoming_deps g true
            ((collect_subtree max_depth se.1 0 se.2).map (fun e => e.1)) e.1),
        outgoing_dependencies := (collect_subtree max_depth se.1 0 se.2).flatMap
          (fun e => elem_outgoing_deps g true
            ((collect_subtree max_depth se.1 0 se.2).map (fun e => e.1)) e.1) } := by
    unfold get_subtree_dependencies
    rw [hres]
  refine ⟨by rw [hr], ?_, ?_⟩
  · intro d hd
    rw [hr] at hd
    obtain ⟨e, he, hde⟩ := List.mem_flatMap.mp hd
    have hfrom := elem_internal_deps_from hde
    obtain ⟨a, _, _, hmem, rfl⟩ := mem_elem_internal_deps.mp hde
    constructor
    · rw [show (assoc_to_dep a).fromPath = e.1 from hfrom]
      exact List.mem_map_of_mem _ he
    · exact hmem
  · intro e0 he0
    have hch := (subtree_deps_char g root_path max_depth true se hres hnd e0 he0).1
    simpa using hch

/-- C3 witness: on the spec scenario graph (root owning A, which owns B
and C, with one association from B to C typed uses), the subtree of A has
distinct paths and every internal dependency keeps both endpoints inside
the subtree. -/
theorem C3_witness :
    findElementFromPath gBC "A" = some ("A", ETree.mk "A" "dir" []
        [.mk "B" "file" [] [], .mk "C" "file" [] []]) ∧
    ((collect_subtree none "A" 0 (ETree.mk "A" "dir" []
        [.mk "B" "file" [] [], .mk "C" "file" [] []])).map (fun e => e.1)).Nodup ∧
    (∀ d ∈ (get_subtree_dependencies gBC "A" true none).internal_dependencies,
        d.fromPath ∈ (collect_subtree none "A" 0 (ETree.mk "A" "dir" []
            [.mk "B" "file" [] [], .mk "C" "file" [] []])).map (fun e => e.1) ∧
        d.toPath ∈ (collect_subtree none "A" 0 (ETree.mk "A" "dir" []
            [.mk "B" "file" [] [], .mk "C" "file" [] []])).map (fun e => e.1)) :=
  ⟨rfl, by decide,
    (C3_subtree_dependency_endpoints gBC "A" none ("A", ETree.mk "A" "dir" []
      [.mk "B" "file" [] [], .mk "C" "file" [] []]) rfl (by decide)).2.1⟩

/-- C6 (amended): with include_external false, the outgoing-association
classification drops exactly the dependencies whose target path contains
the External segment (so internal and outgoing entries never carry an
external target), and the incoming classification drops exactly those
whose source path contains it; the source side of outgoing entries and the
target side of incoming entries are not tested, so a dependency out of an
element living under External is kept — see the counterexample.  With
include_external true nothing is dropped: the per-element collections
equal the unfiltered classifications. -/
theorem C6_external_drop_rule (g : Graph) (root_path : String)
    (max_depth : Option Int) (se : String × ETree)
    (hres : findElementFromPath g root_path = some se)
    (hnd : ((collect_subtree max_depth se.1 0 se.2).map (fun e => e.1)).Nodup) :
    (∀ d ∈ (get_subtree_dependencies g root_path false max_depth).internal_dependencies,
      strContains d.toPath extSeg = false) ∧
    (∀ d ∈ (get_subtree_dependencies g root_path false max_depth).outgoing_dependencies,
      strContains d.toPath extSeg = false) ∧
    (∀ d ∈ (get_subtree_dependencies g root_path false max_depth).incoming_dependencies,
      strContains d.fromPath extSeg = false) ∧
    (∀ e0 ∈ collect_subtree max_depth se.1 0 se.2,
      ((((get_subtree_dependencies g root_path false
            max_depth).internal_dependencies.filter
          (fun d => d.fromPath == e0.1)) ++
        ((get_subtree_dependencies g root_path false
            max_depth).outgoing_dependencies.filter
          (fun d => d.fromPath == e0.1))).Perm
        (((outgoingOf g e0.1).filter
          (fun a => !strContains a.dst extSeg)).map assoc_to_dep)) ∧
      ((get_subtree_dependencies g root_path false
          max_depth).incoming_dependencies.filter
          (fun d => d.toPath == e0.1) =
        ((incomingOf g e0.1).filter (fun a => !strContains a.src extSeg &&
          !(decide (a.src ∈ (collect_subtree max_depth se.1 0 se.2).map
            (fun e => e.1))))).map assoc_to_dep)) ∧
    (∀ e0 ∈ collect_subtree max_depth se.1 0 se.2,
      ((((get_subtree_dependencies g root_path true
            max_depth).internal_dependencies.filter
          (fun d => d.fromPath == e0.1)) ++
        ((get_subtree_dependencies g root_path true
            max_depth).outgoing_dependencies.filter
          (fun d => d.fromPath == e0.1))).Perm
        ((outgoingOf g e0.1).map assoc_to_dep)) ∧
      ((get_subtree_dependencies g root_path true
          max_depth).incoming_dependencies.filter
          (fun d => d.toPath == e0.1) =
        ((incomingOf g e0.1).filter
          (fun a => !(decide (a.src ∈ (collect_subtree max_depth se.1 0 se.2).map
            (fun e => e.1))))).map assoc_to_dep)) := by
  have hrF : get_subtree_dependencies g root_path false max_depth =
      { subtree_elements := (collect_subtree max_depth se.1 0 se.2).map
          (fun e => element_to_dict e.1 e.2 []),
        internal_dependencies := (collect_subtree max_depth se.1 0 se.2).flatMap
          (fun e => elem_internal_deps g false
            ((collect_subtree max_depth se.1 0 se.2).map (fun e => e.1)) e.1),
        incoming_dependencies := (collect_subtree max_depth se.1 0 se.2).flatMap
          (fun e => elem_incoming_deps g false
            ((collect_subtree max_depth se.1 0 se.2).map (fun e => e.1)) e.1),
        outgoing_dependencies := (collect_subtree max_depth se.1 0 se.2).flatMap
          (fun e => elem_outgoing_deps g false
            ((collect_subtree max_depth se.1 0 se.2).map (fun e => e.1)) e.1) } := by
    unfold get_subtree_dependencies
    rw [hres]
  refine ⟨?_, ?_, ?_, ?_, ?_⟩
  · intro d hd
    rw [hrF] at hd
    obtain ⟨e, _, hde⟩ := List.mem_flatMap.mp hd
    obtain ⟨a, _, hc2, _, rfl⟩ := mem_elem_internal_deps.mp hde
    simpa using hc2
  · intro d hd
    rw [hrF] at hd
    obtain ⟨e, _, hde⟩ := List.mem_flatMap.mp hd
    obtain ⟨a, _, hc2, _, rfl⟩ := mem_elem_outgoing_deps.mp hde
    simpa using hc2
  · intro d hd
    rw [hrF] at hd
    obtain ⟨e, _, hde⟩ := List.mem_flatMap.mp hd
    obtain ⟨a, _, hc2, _, rfl⟩ := mem_elem_incoming_deps.mp hde
    simpa using hc2
  · intro e0 he0
    have hch := subtree_deps_char g root_path max_depth false se hres hnd e0 he0
    constructor
    · have h1 := hch.1
      simpa using h1
    · have h2 := hch.2
      simpa using h2
  · intro e0 he0
    have hch := subtree_deps_char g root_path max_depth true se hres hnd e0 he0
    constructor
    · have h1 := hch.1
      simpa using h1
    · have h2 := hch.2
      simpa using h2

/-- C6 counterexample: in a subtree rooted under the External namespace,
with include_external false, the dependency from Proj/External/lib to
Proj/Main/y survives in outgoing_dependencies although its source path
lies under the External segment — only target paths are tested on the
outgoing side, refuting the claim that any dependency with an external
source or target is dropped from all three collections. -/
theorem C6_counterexample :
    (get_subtree_dependencies gExt "Proj/External/lib" false
        none).outgoing_dependencies =
      [⟨"Proj/External/lib", "Proj/Main/y", "use"⟩] ∧
    strContains "Proj/External/lib" extSeg = true :=
  ⟨rfl, rfl⟩

/-- C6 witness: on the External-bearing graph scoped at Proj, with
include_external false, no internal dependency carries an external
target. -/
theorem C6_witness :
    findElementFromPath gExt "Proj" = some ("Proj", ETree.mk "Proj" "dir" []
        [.mk "External" "dir" [] [.mk "lib" "file" [] []],
         .mk "Main" "dir" [] [.mk "y" "file" [] []]]) ∧
    ((collect_subtree none "Proj" 0 (ETree.mk "Proj" "dir" []
        [.mk "External" "dir" [] [.mk "lib" "file" [] []],
         .mk "Main" "dir" [] [.mk "y" "file" [] []]])).map (fun e => e.1)).Nodup ∧
    (∀ d ∈ (get_subtree_dependencies gExt "Proj" false none).internal_dependencies,
      strContains d.toPath extSeg = false) :=
  ⟨rfl, by decide,
    (C6_external_drop_rule gExt "Proj" none ("Proj", ETree.mk "Proj" "dir" []
      [.mk "External" "dir" [] [.mk "lib" "file" [] []],
       .mk "Main" "dir" [] [.mk "y" "file" [] []]]) rfl (by decide)).1⟩
